import Mathlib

/-
Verification of the `python_utils` repository (files.py, db.py, decorators.py,
sorting.py, swn.py, extraction.py) against its natural-language specification.

The Python code is shallowly embedded: pure string manipulation becomes
functions on `String` / `List Char`; Python `str.split()` / `str.split('\t')`
become the executable `splitP`; fallible operations (tuple unpacking,
`int()` / `float()` parsing, dictionary `KeyError`, filesystem errors) become
`Option` / `Except`; the external resources (filesystem, WordNet, the NLTK
tagger) become explicit parameters carrying the data the code reads from them.
Python floats are modelled as exact rationals `ℚ`.
-/

namespace PyUtils

/-! ## Character-level split (embedding of Python `str.split`) -/

/-- Splits a list of characters at every character satisfying `p`, keeping
empty pieces, mirroring Python `str.split(sep)` for a one-character separator
(and, once empty pieces are filtered out, Python's whitespace `str.split()`). -/
def splitP (p : Char → Bool) : List Char → List (List Char)
  | [] => [[]]
  | c :: l => if p c then [] :: splitP p l else (splitP p l).modifyHead (c :: ·)

/-- Embedding of Python `field.split()` (split on whitespace, dropping empty
pieces), as used by `db.build_field_descriptor`. -/
def pySplit (s : String) : List String :=
  ((splitP Char.isWhitespace s.data).filter (fun t => !t.isEmpty)).map String.mk

/-- Embedding of Python `line.split('\t')`, as used by
`swn.SentiWordNet._parse_line`. -/
def pySplitTab (s : String) : List String :=
  (splitP (fun c => c == '\t') s.data).map String.mk

/-! ## db.py -/

/-- Embeds `db.encode_field_pair`: renders a `(field_name, type_desc)` pair,
appending `' PRIMARY KEY'` when the name matches `primary_key` and
`' AUTO_INCREMENT'` when it matches `auto_inc` (which is `None`-able). -/
def encode_field_pair (field_pair : String × String) (primary_key : String)
    (auto_inc : Option String) : String :=
  let ret := field_pair.1 ++ " " ++ field_pair.2
  let ret := if field_pair.1 = primary_key then ret ++ " PRIMARY KEY" else ret
  if some field_pair.1 = auto_inc then ret ++ " AUTO_INCREMENT" else ret

/-- Embeds the tuple unpacking `field_name, type_desc = field.split()` inside
`db.encode_field_pair`; `none` models the `ValueError` raised when the field
string does not split into exactly two tokens. -/
def unpackPair (field : String) : Option (String × String) :=
  match pySplit field with
  | [a, b] => some (a, b)
  | _ => none

/-- Unpacks every field string of a field list; `none` models the first
`ValueError` aborting `db.build_field_descriptor`. -/
def unpackFields : List String → Option (List (String × String))
  | [] => some []
  | f :: fs =>
    match unpackPair f, unpackFields fs with
    | some p, some ps => some (p :: ps)
    | _, _ => none

/-- Embeds `', '.join(...)` from `db.build_field_descriptor`. -/
def joinComma : List String → String
  | [] => ""
  | [s] => s
  | s :: rest => s ++ ", " ++ joinComma rest

/-- Embeds `db.build_field_descriptor`: splits each `'name type'` string,
encodes each pair and joins them inside parentheses.  In the source
`auto_inc` defaults to `None`; here it is passed explicitly. -/
def build_field_descriptor (fields : List String) (primary_key : String)
    (auto_inc : Option String) : Option String :=
  (unpackFields fields).map fun pairs =>
    "(" ++ joinComma (pairs.map fun pair => encode_field_pair pair primary_key auto_inc) ++ ")"

/-- An encoded field string carries the `PRIMARY KEY` marker: the substring
`" PRIMARY KEY"` occurs in it.  (Field names and types are single
whitespace-free tokens, so the two-space pattern can only come from the
appended marker.) -/
def hasPKMark (s : String) : Bool :=
  decide (" PRIMARY KEY".data <:+: s.data)

/-- An encoded field string carries the `AUTO_INCREMENT` marker: it has at
least three whitespace-separated tokens (a bare `name type` pair has two)
and its last token is `AUTO_INCREMENT` (the marker is always appended last). -/
def carriesAIMark (s : String) : Bool :=
  let ts := splitP Char.isWhitespace s.data
  decide (3 ≤ ts.length) && decide (ts.reverse.head? = some "AUTO_INCREMENT".data)

/-! ## files.py -/

/-- The filesystem as `files.getsize` observes it: `isfile`/`isdir` mirror
`os.path.isfile`/`os.path.isdir`, `size` mirrors `os.path.getsize` (`none`
models the `OSError` raised for a missing path), and `walkFiles` gives the
full paths of all files produced by `os.walk`, which yields nothing for a
nonexistent root (its listing error is ignored since `onerror` is `None`). -/
structure FileSystem where
  isfile : String → Bool
  isdir : String → Bool
  size : String → Option Nat
  walkFiles : String → List String

/-- The loop of `files.getsize` over the files produced by `os.walk`:
skips a file when `ignorefunc` is given and returns true on it, otherwise
adds its size to the accumulator `ret`. -/
def walkSum (fs : FileSystem) (ignorefunc : Option (String → Bool)) :
    List String → Nat → Except String Nat
  | [], ret => Except.ok ret
  | fpath :: rest, ret =>
    if (match ignorefunc with | some g => g fpath | none => false) then
      walkSum fs ignorefunc rest ret
    else
      match fs.size fpath with
      | some n => walkSum fs ignorefunc rest (ret + n)
      | none => Except.error "OSError"

/-- Embeds `files.getsize`: a plain file's size is looked up directly
(propagating the I/O error), otherwise the directory tree is walked and the
non-ignored file sizes are summed starting from `ret = 0`. -/
def getsize (fs : FileSystem) (path : String) (ignorefunc : Option (String → Bool)) :
    Except String Nat :=
  if fs.isfile path then
    match fs.size path with
    | some n => Except.ok n
    | none => Except.error "OSError"
  else
    walkSum fs ignorefunc (fs.walkFiles path) 0

/-- A filesystem on which nothing exists: every lookup fails and every walk
is empty, as `os` behaves on paths that do not exist. -/
def emptyFS : FileSystem :=
  { isfile := fun _ => false
    isdir := fun _ => false
    size := fun _ => none
    walkFiles := fun _ => [] }

/-! ## sorting.py -/

/-- Stable insertion into a sorted list: `a` goes in front of the first
element `b` with `le a b`. -/
def insortBy (le : α → α → Bool) (a : α) : List α → List α
  | [] => [a]
  | b :: l => if le a b then a :: b :: l else b :: insortBy le a l

/-- Stable sort (insertion sort): an element is placed before a later
element `b` exactly when `le a b`, so ties keep their original order —
the stability contract of Python `sorted`. -/
def sortBy (le : α → α → Bool) : List α → List α
  | [] => []
  | a :: l => insortBy le a (sortBy le l)

/-- Python's strict order on characters: comparison of code points. -/
def chLt (a b : Char) : Bool :=
  decide (a.toNat < b.toNat)

/-- Python's strict lexicographic order on strings, character by
character. -/
def strLt : List Char → List Char → Bool
  | [], [] => false
  | [], _ :: _ => true
  | _ :: _, [] => false
  | a :: as, b :: bs => chLt a b || (decide (a = b) && strLt as bs)

/-- Strict lexicographic order on the `(value, key)` tuples built by the
`key=lambda (k, v): (v, k)` of `sorting.dict_by_value`, mirroring Python
tuple comparison. -/
def tupLt (p q : Int × String) : Bool :=
  decide (p.1 < q.1) || (decide (p.1 = q.1) && strLt p.2.data q.2.data)

/-- Reflexive closure of `tupLt`. -/
def tupLe (p q : Int × String) : Bool :=
  tupLt p q || decide (p = q)

/-- Embeds `sorting.dict_by_value`: the dictionary's entries (an association
list here) sorted by `(value, key)`; `reverse = true` is Python's
`reverse=True`, a stable descending sort. -/
def dict_by_value (adict : List (String × Int)) (reverse : Bool) : List (String × Int) :=
  sortBy (fun kv kv' =>
    if reverse then !tupLt (kv.2, kv.1) (kv'.2, kv'.1)
    else tupLe (kv.2, kv.1) (kv'.2, kv'.1)) adict

/-! ## decorators.py — the `memoized` wrapper -/

/-- First-match lookup in an association list; models both the Python
dictionary lookup `self.cache[args]` of `decorators.memoized` (with the
convention that insertion conses, so the first match is the most recent
binding) and `self._synset_dict[...]` of `swn.py`; `none` models `KeyError`. -/
def lookupCache [DecidableEq α] : List (α × β) → α → Option β
  | [], _ => none
  | (k, v) :: rest, a => if k = a then some v else lookupCache rest a

/-- Embeds `memoized.__call__` for a wrapped function that returns normally.
`hashable` models whether the positional-argument tuple is usable as a
dictionary key: an unhashable tuple raises `TypeError` inside
`self.cache[args]`, which the wrapper catches by calling the function
directly without caching.  Returns (result, new cache, whether the wrapped
function was invoked). -/
def memoCall [DecidableEq α] (func : α → β) (hashable : α → Bool)
    (cache : List (α × β)) (args : α) : β × List (α × β) × Bool :=
  if hashable args then
    match lookupCache cache args with
    | some v => (v, cache, false)
    | none => (func args, (args, func args) :: cache, true)
  else
    (func args, cache, true)

/-- Runs a sequence of calls through the memoizing wrapper, threading the
cache.  Returns (final cache, the list of returned values, the list of
arguments on which the wrapped function was actually invoked). -/
def memoRun [DecidableEq α] (func : α → β) (hashable : α → Bool)
    (cache : List (α × β)) : List α → List (α × β) × List β × List α
  | [] => (cache, [], [])
  | a :: as =>
    match memoCall func hashable cache a with
    | (r, cache', inv) =>
      match memoRun func hashable cache' as with
      | (cf, rs, invs) => (cf, r :: rs, if inv then a :: invs else invs)

/-- Embeds `memoized.__call__` for a wrapped function that may raise
(`Except.error`): on a cache miss the call `value = self.func(*args)` comes
before the store `self.cache[args] = value`, so an exception propagates and
nothing is cached. -/
def memoCallE [DecidableEq α] (func : α → Except ε β) (hashable : α → Bool)
    (cache : List (α × β)) (args : α) : Except ε β × List (α × β) × Bool :=
  if hashable args then
    match lookupCache cache args with
    | some v => (Except.ok v, cache, false)
    | none =>
      match func args with
      | Except.ok v => (Except.ok v, (args, v) :: cache, true)
      | Except.error e => (Except.error e, cache, true)
  else
    (func args, cache, true)

/-! ## extraction.py — frequency distributions over tagged text

The tokenizer and tagger are external NLTK resources; their output — the
tagged sentences, each a list of `(word, tag)` pairs — is taken as the input
of the two frequency-distribution builders, exactly what `xtagged_tuples`
feeds the loops of `tag_freq` and `tag_cond_freq`. -/

/-- Embeds `nltk.FreqDist.inc`: bump the count of `word` by one. -/
def fdInc (fd : String → Nat) (word : String) : String → Nat :=
  fun w => if w = word then fd w + 1 else fd w

/-- Embeds `extraction.tag_freq`: one merged frequency distribution counting
every word occurrence whose tag lies in `tag_list`, over all tagged
sentences. -/
def tag_freq (tagged_sents : List (List (String × String))) (tag_list : List String) :
    String → Nat :=
  tagged_sents.foldl
    (fun fd sent =>
      sent.foldl (fun fd wt => if wt.2 ∈ tag_list then fdInc fd wt.1 else fd) fd)
    (fun _ => 0)

/-- Embeds `extraction.tag_cond_freq`: a conditional frequency distribution
keeping, for each tag in `tag_list`, a separate count per word. -/
def tag_cond_freq (tagged_sents : List (List (String × String))) (tag_list : List String) :
    String → String → Nat :=
  tagged_sents.foldl
    (fun cfd sent =>
      sent.foldl
        (fun cfd wt =>
          if wt.2 ∈ tag_list then
            fun t => if t = wt.2 then fdInc (cfd t) wt.1 else cfd t
          else cfd)
        cfd)
    (fun _ _ => 0)

/-! ## swn.py -/

/-- A WordNet synset as `swn.py` observes it: a part-of-speech tag and an
integer offset. -/
structure WNSynset where
  pos : String
  offset : Int
deriving DecidableEq

/-- The external WordNet database: `synset_from_pos_and_offset` models
`wordnet._synset_from_pos_and_offset` (`none` = the lookup raises) and
`synsets` models `wordnet.synsets(word)` — note the source calls it without
any part-of-speech argument. -/
structure WordNetDB where
  synset_from_pos_and_offset : String → Int → Option WNSynset
  synsets : String → List WNSynset

/-- A WordNet database on which every `(pos, offset)` lookup succeeds and no
word has candidate synsets; used to instantiate theorems on concrete data. -/
def wnAll : WordNetDB :=
  { synset_from_pos_and_offset := fun p o => some ⟨p, o⟩
    synsets := fun _ => [] }

/-- Embeds `swn.SWNEntry`: the resolved synset, the two parsed scores, the
derived objectivity score and the synthetic dictionary key. -/
structure SWNEntry where
  synset : WNSynset
  pos_score : ℚ
  neg_score : ℚ
  obj_score : ℚ
  unique_key : String
deriving DecidableEq

/-- Embeds `SWNEntry.make_unique_key`: part-of-speech letter concatenated
with the decimal offset. -/
def SWNEntry.make_unique_key (pos : String) (offset : Int) : String :=
  pos ++ toString offset

/-- Embeds `SWNEntry.__init__`: resolves the synset through WordNet (`none`
when that lookup raises), stores the two scores, computes
`obj_score = 1 - pos_score - neg_score`, and builds the key from the
resolved synset's pos and offset. -/
def SWNEntry.init (wn : WordNetDB) (pos : String) (synset_id : Int)
    (pos_score neg_score : ℚ) : Option SWNEntry :=
  (wn.synset_from_pos_and_offset pos synset_id).map fun syn =>
    { synset := syn
      pos_score := pos_score
      neg_score := neg_score
      obj_score := 1 - pos_score - neg_score
      unique_key := SWNEntry.make_unique_key syn.pos syn.offset }

/-- Embeds `SWNEntry.get_scores`: the `(positive, negative, objective)`
triple. -/
def SWNEntry.get_scores (e : SWNEntry) : ℚ × ℚ × ℚ :=
  (e.pos_score, e.neg_score, e.obj_score)

/-- One decimal digit's value, `none` for a non-digit. -/
def digitVal (c : Char) : Option Nat :=
  if c.isDigit then some (c.toNat - '0'.toNat) else none

/-- Accumulates decimal digits left to right, failing on a non-digit. -/
def parseDigitsAux : Nat → List Char → Option Nat
  | acc, [] => some acc
  | acc, c :: l =>
    match digitVal c with
    | some d => parseDigitsAux (acc * 10 + d) l
    | none => none

/-- A nonempty run of decimal digits as a number. -/
def parseDigits : List Char → Option Nat
  | [] => none
  | l => parseDigitsAux 0 l

/-- Embedding of Python `int(s)` restricted to optionally-signed decimal
integers, the format of the lexicon's offset column. -/
def parseInt (s : String) : Option Int :=
  match s.data with
  | '-' :: rest => (parseDigits rest).map fun n => -(n : Int)
  | l => (parseDigits l).map fun n => (n : Int)

/-- The fractional-part interpretation of a digit run. -/
def fracVal (digits : List Char) (n : Nat) : ℚ :=
  (n : ℚ) / (10 ^ digits.length : ℚ)

/-- Embedding of Python `float(s)` restricted to optionally-signed decimal
numbers `digits[.digits]`, the format of the lexicon's score columns;
modelled with exact rational arithmetic. -/
def parseRat (s : String) : Option ℚ :=
  let unsigned : List Char → Option ℚ := fun l =>
    match splitP (fun c => c == '.') l with
    | [intPart] => (parseDigits intPart).map fun n => (n : ℚ)
    | [intPart, fracPart] =>
      match parseDigits intPart, parseDigits fracPart with
      | some ip, some fp => some ((ip : ℚ) + fracVal fracPart fp)
      | _, _ => none
    | _ => none
  match s.data with
  | '-' :: rest => (unsigned rest).map Neg.neg
  | l => unsigned l

/-- Embeds `line.startswith('#')` on the comment marker of the lexicon
file. -/
def startsHash (line : String) : Bool :=
  match line.data with
  | '#' :: _ => true
  | _ => false

/-- Embeds `SentiWordNet._parse_line`: the line must split into exactly six
tab-separated fields (pos, offset, positive score, negative score, synset
terms, gloss — the last two are discarded), with an integer offset and
numeric scores; any failure (also of the synset resolution inside
`SWNEntry.__init__`) yields `none`, the exception the constructor catches
and re-raises. -/
def parse_line (wn : WordNetDB) (line : String) : Option SWNEntry :=
  match pySplitTab line with
  | [synset_pos, synset_offset, pos_score, neg_score, _synset_terms, _gloss] =>
    match parseInt synset_offset, parseRat pos_score, parseRat neg_score with
    | some off, some p, some n => SWNEntry.init wn synset_pos off p n
    | _, _, _ => none
  | _ => none

/-- The error `SentiWordNet.__init__` reports before re-raising: the
1-based number and the content of the offending line. -/
structure ParseFailure where
  lineno : Nat
  content : String
deriving DecidableEq

/-- A data line the constructor cannot parse: not a comment and rejected by
`parse_line`. -/
def malformed (wn : WordNetDB) (line : String) : Bool :=
  !startsHash line && (parse_line wn line).isNone

/-- The enumerated loop of `SentiWordNet.__init__` starting at 0-based line
index `k` with the synset dictionary built so far: comment lines are
skipped, parsed entries are inserted under their key (consing, so a later
duplicate key shadows an earlier one, Python's overwrite), and the first
parse failure aborts the whole construction with the line's number and
content. -/
def SentiWordNet.initAux (wn : WordNetDB) :
    Nat → List String → List (String × SWNEntry) →
    Except ParseFailure (List (String × SWNEntry))
  | _, [], d => Except.ok d
  | k, line :: rest, d =>
    if startsHash line then SentiWordNet.initAux wn (k + 1) rest d
    else
      match parse_line wn line with
      | some entry => SentiWordNet.initAux wn (k + 1) rest ((entry.unique_key, entry) :: d)
      | none => Except.error ⟨k + 1, line⟩

/-- Embeds `SentiWordNet.__init__`: scan the file's lines once and either
return the fully built synset dictionary or the first parse failure. -/
def SentiWordNet.init (wn : WordNetDB) (lines : List String) :
    Except ParseFailure (List (String × SWNEntry)) :=
  SentiWordNet.initAux wn 0 lines []

/-- Embeds `SentiWordNet.get_possible_synsets`: asks WordNet for the word's
candidate synsets (the `pos` parameter is accepted but the source never
passes it to `wordnet.synsets`), and resolves each candidate through the
synset dictionary; `none` models the `KeyError` when a candidate has no
lexicon entry. -/
def get_possible_synsets (wn : WordNetDB) (synset_dict : List (String × SWNEntry))
    (word : String) (pos : Option String) : Option (List SWNEntry) :=
  (wn.synsets word).mapM fun syn =>
    lookupCache synset_dict (SWNEntry.make_unique_key syn.pos syn.offset)

/-- Embeds `SentiWordNet.most_frequent_synset`: the first candidate of
`get_possible_synsets` if any, else `None` — wrapped in the same `Option`
as `get_possible_synsets` for its possible `KeyError`. -/
def most_frequent_synset (wn : WordNetDB) (synset_dict : List (String × SWNEntry))
    (word : String) (pos : Option String) : Option (Option SWNEntry) :=
  (get_possible_synsets wn synset_dict word pos).map fun possible => possible.head?

/-- A concrete entry used to instantiate the score-invariant theorem:
what `SWNEntry.init wnAll "a" 5 0 0` builds. -/
def sampleEntry : SWNEntry :=
  { synset := ⟨"a", 5⟩
    pos_score := 0
    neg_score := 0
    obj_score := 1 - 0 - 0
    unique_key := SWNEntry.make_unique_key "a" 5 }

/-! ## Lemmas about `splitP` -/

theorem splitP_ne_nil (p : Char → Bool) (l : List Char) : splitP p l ≠ [] := by
  induction l with
  | nil => simp [splitP]
  | cons c l ih =>
    simp only [splitP]
    split
    · simp
    · cases h : splitP p l with
      | nil => exact absurd h ih
      | cons a t => simp [List.modifyHead_cons]

/-- Every token produced by `splitP` is free of separator characters. -/
theorem mem_splitP_sep_false (p : Char → Bool) {l t : List Char}
    (ht : t ∈ splitP p l) : ∀ c ∈ t, p c = false := by
  induction l generalizing t with
  | nil =>
    simp [splitP] at ht
    subst ht
    simp
  | cons c l ih =>
    simp only [splitP] at ht
    by_cases hc : p c
    · rw [if_pos hc] at ht
      rcases List.mem_cons.mp ht with rfl | hmem
      · simp
      · exact ih hmem
    · rw [if_neg hc] at ht
      cases h : splitP p l with
      | nil => exact absurd h (splitP_ne_nil p l)
      | cons a rest =>
        rw [h, List.modifyHead_cons] at ht
        rcases List.mem_cons.mp ht with rfl | hmem
        · intro x hx
          rcases List.mem_cons.mp hx with rfl | hxa
          · exact Bool.not_eq_true _ ▸ (by simpa using hc)
          · exact ih (h ▸ List.mem_cons_self a rest) x hxa
        · exact ih (h ▸ List.mem_cons_of_mem a hmem)

/-- Prepending a separator-free block onto a list merges it into the first
token of the split. -/
theorem splitP_append (p : Char → Bool) {a : List Char} (b : List Char)
    (ha : ∀ c ∈ a, p c = false) :
    splitP p (a ++ b) = (splitP p b).modifyHead (a ++ ·) := by
  induction a with
  | nil =>
    cases h : splitP p b <;> simp [h]
  | cons c a ih =>
    have hc : p c = false := ha c (List.mem_cons_self c a)
    have ha' : ∀ x ∈ a, p x = false := fun x hx => ha x (List.mem_cons_of_mem c hx)
    simp only [List.cons_append, splitP, hc, Bool.false_eq_true, if_false]
    rw [List.append_eq, ih ha']
    cases h : splitP p b <;> simp [h]

/-- A separator-free block followed by a separator is one whole token. -/
theorem splitP_token (p : Char → Bool) {a : List Char} {s : Char} (b : List Char)
    (ha : ∀ c ∈ a, p c = false) (hs : p s = true) :
    splitP p (a ++ s :: b) = a :: splitP p b := by
  rw [splitP_append p _ ha]
  simp [splitP, hs]

/-- A separator-free list is a single token. -/
theorem splitP_all (p : Char → Bool) {a : List Char} (ha : ∀ c ∈ a, p c = false) :
    splitP p a = [a] := by
  have h := splitP_append p [] ha
  simpa [splitP] using h

/-! ## Lemmas about field unpacking (db.py) -/

/-- A successfully unpacked field pair consists of two whitespace-free
tokens. -/
theorem unpackPair_wsfree {f : String} {a b : String} (h : unpackPair f = some (a, b)) :
    (∀ c ∈ a.data, c.isWhitespace = false) ∧ (∀ c ∈ b.data, c.isWhitespace = false) := by
  unfold unpackPair at h
  cases hsp : pySplit f with
  | nil => rw [hsp] at h; simp at h
  | cons x rest =>
    cases rest with
    | nil => rw [hsp] at h; simp at h
    | cons y rest2 =>
      cases rest2 with
      | cons z rest3 => rw [hsp] at h; simp at h
      | nil =>
        rw [hsp] at h
        simp only [Option.some.injEq, Prod.mk.injEq] at h
        obtain ⟨rfl, rfl⟩ := h
        unfold pySplit at hsp
        cases hF : (splitP Char.isWhitespace f.data).filter (fun t => !t.isEmpty) with
        | nil => rw [hF] at hsp; simp at hsp
        | cons u rest =>
          cases rest with
          | nil => rw [hF] at hsp; simp at hsp
          | cons v rest2 =>
            cases rest2 with
            | cons w rest3 => rw [hF] at hsp; simp at hsp
            | nil =>
              rw [hF] at hsp
              simp only [List.map_cons, List.map_nil, List.cons.injEq, and_true] at hsp
              obtain ⟨hx, hy⟩ := hsp
              have hu : u ∈ splitP Char.isWhitespace f.data :=
                (List.mem_filter.mp (hF ▸ List.mem_cons_self u [v])).1
              have hv : v ∈ splitP Char.isWhitespace f.data :=
                (List.mem_filter.mp (hF ▸ List.mem_cons_of_mem u (List.mem_cons_self v []))).1
              constructor
              · rw [← hx]; exact mem_splitP_sep_false _ hu
              · rw [← hy]; exact mem_splitP_sep_false _ hv

/-- Every pair produced by a successful `unpackFields` consists of two
whitespace-free tokens. -/
theorem unpackFields_wsfree {fields : List String} {pairs : List (String × String)}
    (h : unpackFields fields = some pairs) :
    ∀ pr ∈ pairs, (∀ c ∈ pr.1.data, c.isWhitespace = false) ∧
      (∀ c ∈ pr.2.data, c.isWhitespace = false) := by
  induction fields generalizing pairs with
  | nil =>
    simp [unpackFields] at h
    subst h
    simp
  | cons f fs ih =>
    unfold unpackFields at h
    cases hp : unpackPair f with
    | none => rw [hp] at h; simp at h
    | some q =>
      cases hq : unpackFields fs with
      | none => rw [hp, hq] at h; simp at h
      | some ps =>
        rw [hp, hq] at h
        simp only [Option.some.injEq] at h
        subst h
        intro pr hpr
        rcases List.mem_cons.mp hpr with rfl | hmem
        · cases pr with
          | mk a b => exact unpackPair_wsfree hp
        · exact ih hq pr hmem

/-! ## Lemmas about the PRIMARY KEY / AUTO_INCREMENT markers -/

theorem count_space_zero {l : List Char} (h : ∀ c ∈ l, c.isWhitespace = false) :
    l.count ' ' = 0 :=
  List.count_eq_zero.mpr fun hm => absurd (h ' ' hm) (by decide)

/-- A bare `name type` encoding does not contain the two-space pattern
`" PRIMARY KEY"`. -/
theorem hasPKMark_base {a b : String}
    (ha : ∀ c ∈ a.data, c.isWhitespace = false)
    (hb : ∀ c ∈ b.data, c.isWhitespace = false) :
    hasPKMark (a ++ " " ++ b) = false := by
  unfold hasPKMark
  apply decide_eq_false
  intro hinf
  have hcount := hinf.sublist.count_le ' '
  have hdata : (a ++ " " ++ b).data = a.data ++ ' ' :: b.data := by
    rw [String.data_append, String.data_append]
    simp
  rw [hdata] at hcount
  have h2 : (" PRIMARY KEY".data).count ' ' = 2 := by decide
  have h3 : (a.data ++ ' ' :: b.data).count ' ' = 1 := by
    rw [List.count_append, List.count_cons_self, count_space_zero ha, count_space_zero hb]
  rw [h2, h3] at hcount
  omega

/-- An encoding ending in the appended marker contains `" PRIMARY KEY"`. -/
theorem hasPKMark_appended (s : String) : hasPKMark (s ++ " PRIMARY KEY") = true := by
  unfold hasPKMark
  exact decide_eq_true ⟨s.data, [], by simp [String.data_append]⟩

theorem splitP_pair {a b : String}
    (ha : ∀ c ∈ a.data, c.isWhitespace = false)
    (hb : ∀ c ∈ b.data, c.isWhitespace = false) :
    splitP Char.isWhitespace (a ++ " " ++ b).data = [a.data, b.data] := by
  have hdata : (a ++ " " ++ b).data = a.data ++ ' ' :: b.data := by
    rw [String.data_append, String.data_append]; simp
  rw [hdata, splitP_token _ _ ha (by decide), splitP_all _ hb]

theorem splitP_pk {a b : String}
    (ha : ∀ c ∈ a.data, c.isWhitespace = false)
    (hb : ∀ c ∈ b.data, c.isWhitespace = false) :
    splitP Char.isWhitespace ((a ++ " " ++ b) ++ " PRIMARY KEY").data
      = [a.data, b.data, "PRIMARY".data, "KEY".data] := by
  have hdata : ((a ++ " " ++ b) ++ " PRIMARY KEY").data
      = a.data ++ ' ' :: (b.data ++ ' ' :: ("PRIMARY".data ++ ' ' :: "KEY".data)) := by
    rw [String.data_append, String.data_append, String.data_append]
    have : " PRIMARY KEY".data = ' ' :: ("PRIMARY".data ++ ' ' :: "KEY".data) := by decide
    rw [this]; simp
  rw [hdata, splitP_token _ _ ha (by decide), splitP_token _ _ hb (by decide),
    splitP_token _ _ (by decide) (by decide), splitP_all _ (by decide)]

theorem splitP_ai {a b : String}
    (ha : ∀ c ∈ a.data, c.isWhitespace = false)
    (hb : ∀ c ∈ b.data, c.isWhitespace = false) :
    splitP Char.isWhitespace ((a ++ " " ++ b) ++ " AUTO_INCREMENT").data
      = [a.data, b.data, "AUTO_INCREMENT".data] := by
  have hdata : ((a ++ " " ++ b) ++ " AUTO_INCREMENT").data
      = a.data ++ ' ' :: (b.data ++ ' ' :: "AUTO_INCREMENT".data) := by
    rw [String.data_append, String.data_append, String.data_append]
    have : " AUTO_INCREMENT".data = ' ' :: "AUTO_INCREMENT".data := by decide
    rw [this]; simp
  rw [hdata, splitP_token _ _ ha (by decide), splitP_token _ _ hb (by decide),
    splitP_all _ (by decide)]

theorem splitP_pk_ai {a b : String}
    (ha : ∀ c ∈ a.data, c.isWhitespace = false)
    (hb : ∀ c ∈ b.data, c.isWhitespace = false) :
    splitP Char.isWhitespace (((a ++ " " ++ b) ++ " PRIMARY KEY") ++ " AUTO_INCREMENT").data
      = [a.data, b.data, "PRIMARY".data, "KEY".data, "AUTO_INCREMENT".data] := by
  have hdata : (((a ++ " " ++ b) ++ " PRIMARY KEY") ++ " AUTO_INCREMENT").data
      = a.data ++ ' ' :: (b.data ++ ' ' :: ("PRIMARY".data ++ ' ' ::
          ("KEY".data ++ ' ' :: "AUTO_INCREMENT".data))) := by
    rw [String.data_append, String.data_append, String.data_append, String.data_append]
    have h1 : " PRIMARY KEY".data = ' ' :: ("PRIMARY".data ++ ' ' :: "KEY".data) := by decide
    have h2 : " AUTO_INCREMENT".data = ' ' :: "AUTO_INCREMENT".data := by decide
    rw [h1, h2]; simp
  rw [hdata, splitP_token _ _ ha (by decide), splitP_token _ _ hb (by decide),
    splitP_token _ _ (by decide) (by decide), splitP_token _ _ (by decide) (by decide),
    splitP_all _ (by decide)]

theorem carriesAI_two {a b : String}
    (ha : ∀ c ∈ a.data, c.isWhitespace = false)
    (hb : ∀ c ∈ b.data, c.isWhitespace = false) :
    carriesAIMark (a ++ " " ++ b) = false := by
  unfold carriesAIMark
  rw [splitP_pair ha hb]
  simp

theorem carriesAI_pk {a b : String}
    (ha : ∀ c ∈ a.data, c.isWhitespace = false)
    (hb : ∀ c ∈ b.data, c.isWhitespace = false) :
    carriesAIMark ((a ++ " " ++ b) ++ " PRIMARY KEY") = false := by
  unfold carriesAIMark
  rw [splitP_pk ha hb]
  simp

theorem carriesAI_ai {a b : String}
    (ha : ∀ c ∈ a.data, c.isWhitespace = false)
    (hb : ∀ c ∈ b.data, c.isWhitespace = false) :
    carriesAIMark ((a ++ " " ++ b) ++ " AUTO_INCREMENT") = true := by
  unfold carriesAIMark
  rw [splitP_ai ha hb]
  simp

theorem carriesAI_pk_ai {a b : String}
    (ha : ∀ c ∈ a.data, c.isWhitespace = false)
    (hb : ∀ c ∈ b.data, c.isWhitespace = false) :
    carriesAIMark (((a ++ " " ++ b) ++ " PRIMARY KEY") ++ " AUTO_INCREMENT") = true := by
  unfold carriesAIMark
  rw [splitP_pk_ai ha hb]
  simp

/-! ## Explicit shapes of `encode_field_pair` -/

theorem encode_pk_none {p : String × String} {pk : String} (h : p.1 = pk) :
    encode_field_pair p pk none = (p.1 ++ " " ++ p.2) ++ " PRIMARY KEY" := by
  have hs : ¬ some p.1 = (none : Option String) := by simp
  simp only [encode_field_pair]
  rw [if_neg hs, if_pos h]

theorem encode_nopk_none {p : String × String} {pk : String} (h : ¬ p.1 = pk) :
    encode_field_pair p pk none = p.1 ++ " " ++ p.2 := by
  have hs : ¬ some p.1 = (none : Option String) := by simp
  simp only [encode_field_pair]
  rw [if_neg hs, if_neg h]

theorem encode_pk_ai {p : String × String} {pk ai : String}
    (h1 : p.1 = pk) (h2 : p.1 = ai) :
    encode_field_pair p pk (some ai)
      = ((p.1 ++ " " ++ p.2) ++ " PRIMARY KEY") ++ " AUTO_INCREMENT" := by
  have hs : some p.1 = some ai := by rw [h2]
  simp only [encode_field_pair]
  rw [if_pos hs, if_pos h1]

theorem encode_nopk_ai {p : String × String} {pk ai : String}
    (h1 : ¬ p.1 = pk) (h2 : p.1 = ai) :
    encode_field_pair p pk (some ai) = (p.1 ++ " " ++ p.2) ++ " AUTO_INCREMENT" := by
  have hs : some p.1 = some ai := by rw [h2]
  simp only [encode_field_pair]
  rw [if_pos hs, if_neg h1]

theorem encode_pk_noai {p : String × String} {pk ai : String}
    (h1 : p.1 = pk) (h2 : ¬ p.1 = ai) :
    encode_field_pair p pk (some ai) = (p.1 ++ " " ++ p.2) ++ " PRIMARY KEY" := by
  have hs : ¬ some p.1 = some ai := by simpa using h2
  simp only [encode_field_pair]
  rw [if_neg hs, if_pos h1]

theorem encode_nopk_noai {p : String × String} {pk ai : String}
    (h1 : ¬ p.1 = pk) (h2 : ¬ p.1 = ai) :
    encode_field_pair p pk (some ai) = p.1 ++ " " ++ p.2 := by
  have hs : ¬ some p.1 = some ai := by simpa using h2
  simp only [encode_field_pair]
  rw [if_neg hs, if_neg h1]

/-! ## Claims C2 and C3 (db.build_field_descriptor) -/

/-- C2, counterexample to the claim as stated: the claim quantifies over
every primary-key name, but for a field list in which no field is named
`"id"`, `build_field_descriptor` produces a clause with zero `PRIMARY KEY`
annotations, not exactly one. -/
theorem C2_counterexample :
    unpackFields ["a INT"] = some [("a", "INT")]
    ∧ build_field_descriptor ["a INT"] "id" none = some "(a INT)"
    ∧ ([("a", "INT")].map fun pr => encode_field_pair pr "id" none).countP hasPKMark = 0
    ∧ hasPKMark "(a INT)" = false :=
  ⟨by decide, by decide, by decide, by decide⟩

/-- C2 (amended): for every field list of well-formed `'name type'` strings
in which exactly one field name equals the primary-key argument,
`build_field_descriptor` succeeds, exactly one of the encoded fields joined
into the returned clause carries the `PRIMARY KEY` annotation, and an
encoded field carries it exactly when its name equals the primary-key
argument. -/
theorem C2_primary_key_unique_mark (fields : List String) (pk : String)
    (pairs : List (String × String))
    (hparse : unpackFields fields = some pairs)
    (hone : pairs.countP (fun pr => decide (pr.1 = pk)) = 1) :
    build_field_descriptor fields pk none
      = some ("(" ++ joinComma (pairs.map fun pr => encode_field_pair pr pk none) ++ ")")
    ∧ (pairs.map fun pr => encode_field_pair pr pk none).countP hasPKMark = 1
    ∧ ∀ pr ∈ pairs, hasPKMark (encode_field_pair pr pk none) = decide (pr.1 = pk) := by
  have hchar : ∀ pr ∈ pairs, hasPKMark (encode_field_pair pr pk none) = decide (pr.1 = pk) := by
    intro pr hpr
    obtain ⟨ha, hb⟩ := unpackFields_wsfree hparse pr hpr
    by_cases hpk : pr.1 = pk
    · rw [encode_pk_none hpk, hasPKMark_appended, decide_eq_true hpk]
    · rw [encode_nopk_none hpk, hasPKMark_base ha hb, decide_eq_false hpk]
  refine ⟨by simp [build_field_descriptor, hparse], ?_, hchar⟩
  rw [List.countP_map, ← hone]
  exact List.countP_congr fun pr hpr => by
    simp only [Function.comp_apply, hchar pr hpr]

/-- C2 witness: a concrete two-field table with a unique primary-key field
carries exactly one `PRIMARY KEY` annotation. -/
theorem C2_primary_key_unique_mark_witness :
    unpackFields ["id INT", "name VARCHAR(20)"] = some [("id", "INT"), ("name", "VARCHAR(20)")]
    ∧ ([("id", "INT"), ("name", "VARCHAR(20)")].countP (fun pr => decide (pr.1 = "id")) = 1)
    ∧ ([("id", "INT"), ("name", "VARCHAR(20)")].map
        fun pr => encode_field_pair pr "id" none).countP hasPKMark = 1 :=
  ⟨by decide, by decide,
    (C2_primary_key_unique_mark ["id INT", "name VARCHAR(20)"] "id"
      [("id", "INT"), ("name", "VARCHAR(20)")] (by decide) (by decide)).2.1⟩

/-- C3, counterexample to the claim as stated: the claim quantifies over
every field list, but when two fields share the name given as the
auto-increment argument, both encoded fields carry the `AUTO_INCREMENT`
annotation. -/
theorem C3_counterexample :
    unpackFields ["id INT", "id INT"] = some [("id", "INT"), ("id", "INT")]
    ∧ build_field_descriptor ["id INT", "id INT"] "x" (some "id")
        = some "(id INT AUTO_INCREMENT, id INT AUTO_INCREMENT)"
    ∧ ([("id", "INT"), ("id", "INT")].map
        fun pr => encode_field_pair pr "x" (some "id")).countP carriesAIMark = 2 :=
  ⟨by decide, by decide, by decide⟩

/-- C3 (amended): for every field list of well-formed `'name type'` strings
in which at most one field name equals the auto-increment argument, at most
one encoded field of the clause built by `build_field_descriptor` carries
the `AUTO_INCREMENT` annotation; some field carries it only if the
auto-increment name appears among the field names; and an encoded field
carries it exactly when its name equals the auto-increment argument. -/
theorem C3_auto_inc_at_most_one (fields : List String) (pk ai : String)
    (pairs : List (String × String))
    (hparse : unpackFields fields = some pairs)
    (hle : pairs.countP (fun pr => decide (pr.1 = ai)) ≤ 1) :
    build_field_descriptor fields pk (some ai)
      = some ("(" ++ joinComma (pairs.map fun pr => encode_field_pair pr pk (some ai)) ++ ")")
    ∧ (pairs.map fun pr => encode_field_pair pr pk (some ai)).countP carriesAIMark ≤ 1
    ∧ ((pairs.map fun pr => encode_field_pair pr pk (some ai)).countP carriesAIMark ≠ 0
        → ai ∈ pairs.map Prod.fst)
    ∧ ∀ pr ∈ pairs, carriesAIMark (encode_field_pair pr pk (some ai)) = decide (pr.1 = ai) := by
  have hchar : ∀ pr ∈ pairs,
      carriesAIMark (encode_field_pair pr pk (some ai)) = decide (pr.1 = ai) := by
    intro pr hpr
    obtain ⟨ha, hb⟩ := unpackFields_wsfree hparse pr hpr
    by_cases hai : pr.1 = ai
    · by_cases hpk : pr.1 = pk
      · rw [encode_pk_ai hpk hai, carriesAI_pk_ai ha hb, decide_eq_true hai]
      · rw [encode_nopk_ai hpk hai, carriesAI_ai ha hb, decide_eq_true hai]
    · by_cases hpk : pr.1 = pk
      · rw [encode_pk_noai hpk hai, carriesAI_pk ha hb, decide_eq_false hai]
      · rw [encode_nopk_noai hpk hai, carriesAI_two ha hb, decide_eq_false hai]
  have hcnt : (pairs.map fun pr => encode_field_pair pr pk (some ai)).countP carriesAIMark
      = pairs.countP (fun pr => decide (pr.1 = ai)) := by
    rw [List.countP_map]
    exact List.countP_congr fun pr hpr => by
      simp only [Function.comp_apply, hchar pr hpr]
  refine ⟨by simp [build_field_descriptor, hparse], by rw [hcnt]; exact hle, ?_, hchar⟩
  intro hne
  rw [hcnt] at hne
  have hpos : 0 < pairs.countP (fun pr => decide (pr.1 = ai)) := Nat.pos_of_ne_zero hne
  obtain ⟨pr, hpr, hp⟩ := List.countP_pos_iff.mp hpos
  exact List.mem_map.mpr ⟨pr, hpr, (of_decide_eq_true hp).symm ▸ rfl⟩

/-- C3 witness: a concrete table with a unique auto-increment field carries
the `AUTO_INCREMENT` annotation at most once, and its name appears among
the field names. -/
theorem C3_auto_inc_at_most_one_witness :
    unpackFields ["id INT", "n INT"] = some [("id", "INT"), ("n", "INT")]
    ∧ ([("id", "INT"), ("n", "INT")].countP (fun pr => decide (pr.1 = "n")) ≤ 1)
    ∧ ([("id", "INT"), ("n", "INT")].map
        fun pr => encode_field_pair pr "id" (some "n")).countP carriesAIMark ≤ 1 :=
  ⟨by decide, by decide,
    (C3_auto_inc_at_most_one ["id INT", "n INT"] "id" "n"
      [("id", "INT"), ("n", "INT")] (by decide) (by decide)).2.1⟩

/-! ## Claim C1 (files.getsize on a missing path) -/

/-- C1, counterexample to the claim as stated: on a filesystem where the
path `"/missing"` does not exist (neither a file nor a directory),
`getsize` returns normally with the value 0 — `os.walk` silently yields
nothing for a nonexistent root — instead of propagating an I/O failure. -/
theorem C1_counterexample :
    emptyFS.isfile "/missing" = false
    ∧ emptyFS.isdir "/missing" = false
    ∧ getsize emptyFS "/missing" none = Except.ok 0 :=
  ⟨rfl, rfl, rfl⟩

/-- C1 (amended): for every path that is not a plain file and whose
directory walk yields nothing — in particular every path that does not
exist, since `os.walk` ignores the listing error of a missing root —
`getsize` returns normally with 0; the underlying I/O failure is not
propagated. -/
theorem C1_missing_path_size_zero (fs : FileSystem) (path : String)
    (ignorefunc : Option (String → Bool))
    (h1 : fs.isfile path = false) (h2 : fs.walkFiles path = []) :
    getsize fs path ignorefunc = Except.ok 0 := by
  simp [getsize, h1, h2, walkSum]

/-- C1 witness: the amended theorem instantiated on the empty filesystem. -/
theorem C1_missing_path_size_zero_witness :
    emptyFS.isfile "/nothere" = false
    ∧ emptyFS.walkFiles "/nothere" = []
    ∧ getsize emptyFS "/nothere" none = Except.ok 0 :=
  ⟨rfl, rfl, C1_missing_path_size_zero emptyFS "/nothere" none rfl rfl⟩

/-! ## Claim C7 (sorting.dict_by_value) -/

/-- C7: `dict_by_value` on `{'a': 3, 'b': 1, 'c': 3}` returns
`[('b',1), ('a',3), ('c',3)]` ascending (value, then key) and exactly the
reverse sequence `[('c',3), ('a',3), ('b',1)]` when descending is
requested. -/
theorem C7_dict_by_value_sorted :
    dict_by_value [("a", 3), ("b", 1), ("c", 3)] false = [("b", 1), ("a", 3), ("c", 3)]
    ∧ dict_by_value [("a", 3), ("b", 1), ("c", 3)] true = [("c", 3), ("a", 3), ("b", 1)]
    ∧ dict_by_value [("a", 3), ("b", 1), ("c", 3)] true
        = (dict_by_value [("a", 3), ("b", 1), ("c", 3)] false).reverse :=
  ⟨by decide, by decide, by decide⟩

/-! ## Claim C6 (SWNEntry score invariant) -/

/-- C6: every successfully constructed SWN entry reports scores with
`positive + negative + objective = 1` (exactly, in the rational model of
Python floats), the objective score having been computed at construction
as `1 - positive - negative`. -/
theorem C6_swn_scores_sum_one (wn : WordNetDB) (pos : String) (synset_id : Int)
    (p n : ℚ) (e : SWNEntry)
    (hmk : SWNEntry.init wn pos synset_id p n = some e) :
    e.get_scores.1 + e.get_scores.2.1 + e.get_scores.2.2 = 1
    ∧ e.obj_score = 1 - e.pos_score - e.neg_score := by
  obtain ⟨syn, -, rfl⟩ := Option.map_eq_some'.mp hmk
  constructor
  · show p + n + (1 - p - n) = 1
    ring
  · rfl

/-- C6 witness: the invariant instantiated on a concretely built entry. -/
theorem C6_swn_scores_sum_one_witness :
    SWNEntry.init wnAll "a" 5 0 0 = some sampleEntry
    ∧ sampleEntry.get_scores.1 + sampleEntry.get_scores.2.1 + sampleEntry.get_scores.2.2 = 1 :=
  ⟨rfl, (C6_swn_scores_sum_one wnAll "a" 5 0 0 sampleEntry rfl).1⟩

/-! ## Claim C9 (the part-of-speech filter is never applied) -/

/-- C9: `get_possible_synsets` and `most_frequent_synset` return the same
result for any two values of the optional part-of-speech argument — the
source never passes `pos` to `wordnet.synsets`, so the filter parameter
never narrows the candidate list. -/
theorem C9_pos_filter_ignored (wn : WordNetDB) (synset_dict : List (String × SWNEntry))
    (word : String) (pos1 pos2 : Option String) :
    get_possible_synsets wn synset_dict word pos1
      = get_possible_synsets wn synset_dict word pos2
    ∧ most_frequent_synset wn synset_dict word pos1
      = most_frequent_synset wn synset_dict word pos2 :=
  ⟨rfl, rfl⟩

/-! ## Claims C4 and C10 (decorators.memoized) -/

theorem lookupCache_mem {α β} [DecidableEq α] {cache : List (α × β)} {a : α} {v : β}
    (h : lookupCache cache a = some v) : (a, v) ∈ cache := by
  induction cache with
  | nil => simp [lookupCache] at h
  | cons kv rest ih =>
    cases kv with
    | mk k w =>
      rw [lookupCache] at h
      by_cases hk : k = a
      · rw [if_pos hk] at h
        injection h with h
        subst hk h
        exact List.mem_cons_self _ _
      · rw [if_neg hk] at h
        exact List.mem_cons_of_mem _ (ih h)

/-- The behaviour of a call sequence through the memoizing wrapper, for any
starting cache whose entries agree with the wrapped pure function: the
cache invariant is preserved, every call returns the function's value,
arguments already cached are never re-invoked, each hashable argument is
invoked at most once, and each unhashable argument is invoked on every
call. -/
theorem memoRun_spec {α β} [DecidableEq α] (f : α → β) (hashable : α → Bool)
    (as : List α) (cache : List (α × β))
    (hc : ∀ kv ∈ cache, kv.2 = f kv.1) :
    (∀ kv ∈ (memoRun f hashable cache as).1, kv.2 = f kv.1)
    ∧ (memoRun f hashable cache as).2.1 = as.map f
    ∧ (∀ a, hashable a = true → (lookupCache cache a).isSome = true →
        (memoRun f hashable cache as).2.2.countP (fun x => decide (x = a)) = 0)
    ∧ (∀ a, hashable a = true →
        (memoRun f hashable cache as).2.2.countP (fun x => decide (x = a)) ≤ 1)
    ∧ (∀ a, hashable a = false →
        (memoRun f hashable cache as).2.2.countP (fun x => decide (x = a))
          = as.countP (fun x => decide (x = a))) := by
  induction as generalizing cache with
  | nil =>
    refine ⟨hc, rfl, ?_, ?_, ?_⟩ <;> intro a _ <;> simp [memoRun]
  | cons a' as ih =>
    by_cases hha : hashable a' = true
    · cases hlook : lookupCache cache a' with
      | some v =>
        have hv : v = f a' := hc (a', v) (lookupCache_mem hlook)
        have hstep : memoRun f hashable cache (a' :: as)
            = ((memoRun f hashable cache as).1,
               v :: (memoRun f hashable cache as).2.1,
               (memoRun f hashable cache as).2.2) := by
          simp [memoRun, memoCall, hha, hlook]
        obtain ⟨ih1, ih2, ih3, ih4, ih5⟩ := ih cache hc
        rw [hstep]
        refine ⟨ih1, by rw [List.map_cons, ih2, hv], fun a ha hs => ih3 a ha hs,
          fun a ha => ih4 a ha, fun a ha => ?_⟩
        have hne : ¬ (a' = a) := fun he => by rw [he, ha] at hha; cases hha
        rw [ih5 a ha, List.countP_cons]
        simp [hne]
      | none =>
        have hc' : ∀ kv ∈ (a', f a') :: cache, kv.2 = f kv.1 := by
          intro kv hkv
          rcases List.mem_cons.mp hkv with rfl | hmem
          · rfl
          · exact hc kv hmem
        have hstep : memoRun f hashable cache (a' :: as)
            = ((memoRun f hashable ((a', f a') :: cache) as).1,
               f a' :: (memoRun f hashable ((a', f a') :: cache) as).2.1,
               a' :: (memoRun f hashable ((a', f a') :: cache) as).2.2) := by
          simp [memoRun, memoCall, hha, hlook]
        obtain ⟨ih1, ih2, ih3, ih4, ih5⟩ := ih ((a', f a') :: cache) hc'
        rw [hstep]
        have hlook' : ∀ a, ¬ (a' = a) →
            lookupCache ((a', f a') :: cache) a = lookupCache cache a := by
          intro a hne
          rw [lookupCache, if_neg hne]
        refine ⟨ih1, by rw [List.map_cons, ih2], ?_, ?_, ?_⟩
        · intro a ha hs
          have hne : ¬ (a' = a) := by
            intro he
            subst he
            rw [hlook] at hs
            cases hs
          rw [List.countP_cons]
          have h0 : (memoRun f hashable ((a', f a') :: cache) as).2.2.countP
              (fun x => decide (x = a)) = 0 := by
            apply ih3 a ha
            rw [hlook' a hne, hs]
          rw [h0]
          simp [hne]
        · intro a ha
          by_cases he : a' = a
          · subst he
            rw [List.countP_cons]
            have h0 : (memoRun f hashable ((a', f a') :: cache) as).2.2.countP
                (fun x => decide (x = a')) = 0 := by
              apply ih3 a' ha
              rw [lookupCache, if_pos rfl]
              rfl
            rw [h0]
            simp
          · have hle := ih4 a ha
            rw [List.countP_cons]
            simpa [he] using hle
        · intro a ha
          rw [List.countP_cons, List.countP_cons, ih5 a ha]
    · have hha' : hashable a' = false := by
        revert hha; cases hashable a' <;> simp
      have hstep : memoRun f hashable cache (a' :: as)
          = ((memoRun f hashable cache as).1,
             f a' :: (memoRun f hashable cache as).2.1,
             a' :: (memoRun f hashable cache as).2.2) := by
        simp [memoRun, memoCall, hha']
      obtain ⟨ih1, ih2, ih3, ih4, ih5⟩ := ih cache hc
      rw [hstep]
      refine ⟨ih1, by rw [List.map_cons, ih2], ?_, ?_, ?_⟩
      · intro a ha hs
        have hne : ¬ (a' = a) := fun he => by rw [he, ha] at hha'; cases hha'
        rw [List.countP_cons, ih3 a ha hs]
        simp [hne]
      · intro a ha
        have hne : ¬ (a' = a) := fun he => by rw [he, ha] at hha'; cases hha'
        have hle := ih4 a ha
        rw [List.countP_cons]
        simpa [hne] using hle
      · intro a ha
        rw [List.countP_cons, List.countP_cons, ih5 a ha]

/-- C4: across any call sequence through the memoizing wrapper started with
an empty cache and wrapping a pure function, every call returns the
function's value on its argument (cached repeats included); a hashable
argument causes at most one invocation of the wrapped function over the
whole sequence; and an unhashable argument is invoked once per call, the
caching being bypassed. -/
theorem C4_memoized_calls_once {α β} [DecidableEq α] (f : α → β) (hashable : α → Bool)
    (as : List α) (a : α) :
    (memoRun f hashable [] as).2.1 = as.map f
    ∧ (hashable a = true →
        (memoRun f hashable [] as).2.2.countP (fun x => decide (x = a)) ≤ 1)
    ∧ (hashable a = false →
        (memoRun f hashable [] as).2.2.countP (fun x => decide (x = a))
          = as.countP (fun x => decide (x = a))) := by
  obtain ⟨-, h2, -, h4, h5⟩ := memoRun_spec f hashable as [] (by simp)
  exact ⟨h2, fun h => h4 a h, fun h => h5 a h⟩

/-- C4 witness: a concrete call sequence where the hashable argument 1 is
passed twice but invoked at most once, and the unhashable argument 0 is
invoked on each of its two calls, all calls returning the wrapped
function's value. -/
theorem C4_memoized_calls_once_witness :
    (memoRun (fun n => n + 1) (fun n => decide (0 < n)) [] [1, 1, 0, 0, 2]).2.1
      = [2, 2, 1, 1, 3]
    ∧ (memoRun (fun n => n + 1) (fun n => decide (0 < n)) [] [1, 1, 0, 0, 2]).2.2.countP
        (fun x => decide (x = 1)) ≤ 1
    ∧ (memoRun (fun n => n + 1) (fun n => decide (0 < n)) [] [1, 1, 0, 0, 2]).2.2.countP
        (fun x => decide (x = 0)) = 2 := by
  refine ⟨?_, (C4_memoized_calls_once (fun n => n + 1) (fun n => decide (0 < n))
      [1, 1, 0, 0, 2] 1).2.1 (by decide), ?_⟩
  · exact ((C4_memoized_calls_once (fun n => n + 1) (fun n => decide (0 < n))
      [1, 1, 0, 0, 2] 1).1).trans (by decide)
  · exact ((C4_memoized_calls_once (fun n => n + 1) (fun n => decide (0 < n))
      [1, 1, 0, 0, 2] 0).2.2 (by decide)).trans (by decide)

/-- C10: when the wrapped function raises on a cache miss for a hashable
argument, the memoizing wrapper propagates the error, leaves the cache
unchanged (the error is not cached), and a later call with the same
argument invokes the wrapped function again. -/
theorem C10_error_not_cached {α β ε} [DecidableEq α] (f : α → Except ε β)
    (hashable : α → Bool) (cache : List (α × β)) (a : α) (e : ε)
    (hh : hashable a = true) (hmiss : lookupCache cache a = none)
    (herr : f a = Except.error e) :
    memoCallE f hashable cache a = (Except.error e, cache, true)
    ∧ (memoCallE f hashable (memoCallE f hashable cache a).2.1 a).2.2 = true := by
  have h1 : memoCallE f hashable cache a = (Except.error e, cache, true) := by
    simp [memoCallE, hh, hmiss, herr]
  refine ⟨h1, ?_⟩
  rw [h1]
  simp [memoCallE, hh, hmiss, herr]

/-- C10 witness: a concrete always-raising wrapped function on an empty
cache. -/
theorem C10_error_not_cached_witness :
    memoCallE (fun _ : Nat => (Except.error "boom" : Except String Nat))
        (fun _ => true) [] 0 = (Except.error "boom", [], true)
    ∧ (memoCallE (fun _ : Nat => (Except.error "boom" : Except String Nat)) (fun _ => true)
        (memoCallE (fun _ : Nat => (Except.error "boom" : Except String Nat))
          (fun _ => true) [] 0).2.1 0).2.2 = true :=
  C10_error_not_cached _ _ [] 0 "boom" rfl rfl rfl

/-! ## Claim C5 (SentiWordNet construction fails fast) -/

/-- If some line of the remaining input is malformed, the construction loop
aborts with an error whose reported line number and content identify a
malformed line of the input. -/
theorem initAux_error (wn : WordNetDB) (lines : List String) :
    ∀ (k : Nat) (d : List (String × SWNEntry)),
      (∃ l ∈ lines, malformed wn l = true) →
      ∃ err : ParseFailure,
        SentiWordNet.initAux wn k lines d = Except.error err
        ∧ malformed wn err.content = true
        ∧ ∃ i, lines[i]? = some err.content ∧ err.lineno = k + i + 1 := by
  induction lines with
  | nil =>
    intro k d h
    simp at h
  | cons line rest ih =>
    intro k d h
    by_cases hcm : startsHash line = true
    · have hstep : SentiWordNet.initAux wn k (line :: rest) d
          = SentiWordNet.initAux wn (k + 1) rest d := by
        simp [SentiWordNet.initAux, hcm]
      have hrest : ∃ l ∈ rest, malformed wn l = true := by
        obtain ⟨l, hl, hm⟩ := h
        rcases List.mem_cons.mp hl with rfl | hl'
        · rw [malformed, hcm] at hm
          cases hm
        · exact ⟨l, hl', hm⟩
      obtain ⟨err, he, hm, i, hg, hn⟩ := ih (k + 1) d hrest
      exact ⟨err, hstep ▸ he, hm, i + 1, by simpa using hg, by omega⟩
    · have hcm' : startsHash line = false := by
        revert hcm; cases startsHash line <;> simp
      cases hp : parse_line wn line with
      | some entry =>
        have hstep : SentiWordNet.initAux wn k (line :: rest) d
            = SentiWordNet.initAux wn (k + 1) rest ((entry.unique_key, entry) :: d) := by
          simp [SentiWordNet.initAux, hcm', hp]
        have hrest : ∃ l ∈ rest, malformed wn l = true := by
          obtain ⟨l, hl, hm⟩ := h
          rcases List.mem_cons.mp hl with rfl | hl'
          · rw [malformed, hp] at hm
            simp at hm
          · exact ⟨l, hl', hm⟩
        obtain ⟨err, he, hm, i, hg, hn⟩ := ih (k + 1) ((entry.unique_key, entry) :: d) hrest
        exact ⟨err, hstep ▸ he, hm, i + 1, by simpa using hg, by omega⟩
      | none =>
        refine ⟨⟨k + 1, line⟩, ?_, ?_, 0, by simp, by simp⟩
        · simp [SentiWordNet.initAux, hcm', hp]
        · rw [malformed, hcm', hp]
          rfl

/-- C5: constructing the SWN lexicon from a line list containing at least
one malformed data line (a non-comment line that does not parse into six
tab-separated fields with integer offset and numeric scores) yields an
error — never a built dictionary, so no entry is ever queryable — and the
error reports the 1-based number and the content of an offending line. -/
theorem C5_swn_fail_fast (wn : WordNetDB) (lines : List String)
    (h : ∃ l ∈ lines, malformed wn l = true) :
    ∃ err : ParseFailure,
      SentiWordNet.init wn lines = Except.error err
      ∧ startsHash err.content = false
      ∧ parse_line wn err.content = none
      ∧ lines[err.lineno - 1]? = some err.content
      ∧ ∀ d, SentiWordNet.init wn lines ≠ Except.ok d := by
  obtain ⟨err, he, hm, i, hg, hn⟩ := initAux_error wn lines 0 [] h
  rw [malformed, Bool.and_eq_true] at hm
  obtain ⟨hm1, hm2⟩ := hm
  have hsh : startsHash err.content = false := by
    revert hm1; cases startsHash err.content <;> simp
  have hpl : parse_line wn err.content = none := by
    revert hm2; cases hpe : parse_line wn err.content <;> simp
  have hidx : err.lineno - 1 = i := by omega
  refine ⟨err, he, hsh, hpl, by rw [hidx]; exact hg, fun d hd => ?_⟩
  have he' : SentiWordNet.init wn lines = Except.error err := he
  rw [he'] at hd
  exact Except.noConfusion hd

/-- C5 witness: a concrete lexicon file with a comment line, one
well-formed data line and one malformed data line aborts construction. -/
theorem C5_swn_fail_fast_witness :
    (∃ l ∈ ["# comment", "a\t1\t0.5\t0.25\tterms\tgloss", "garbage"],
        malformed wnAll l = true)
    ∧ ∃ err : ParseFailure,
        SentiWordNet.init wnAll ["# comment", "a\t1\t0.5\t0.25\tterms\tgloss", "garbage"]
          = Except.error err
        ∧ startsHash err.content = false
        ∧ parse_line wnAll err.content = none
        ∧ ["# comment", "a\t1\t0.5\t0.25\tterms\tgloss", "garbage"][err.lineno - 1]?
            = some err.content
        ∧ ∀ d, SentiWordNet.init wnAll
            ["# comment", "a\t1\t0.5\t0.25\tterms\tgloss", "garbage"] ≠ Except.ok d :=
  ⟨by decide, C5_swn_fail_fast wnAll _ (by decide)⟩

/-! ## Claim C8 (tag_freq versus tag_cond_freq) -/

/-- The inner loop of `tag_freq` over one tagged sentence adds, at each
word `w`, the number of pairs of the sentence whose word is `w` and whose
tag lies in the tag list. -/
theorem tagfreq_inner (tag_list : List String) (sent : List (String × String))
    (fd : String → Nat) (w : String) :
    (sent.foldl (fun fd wt => if wt.2 ∈ tag_list then fdInc fd wt.1 else fd) fd) w
      = fd w + sent.countP (fun wt => decide (wt.1 = w) && decide (wt.2 ∈ tag_list)) := by
  induction sent generalizing fd with
  | nil => simp
  | cons wt rest ih =>
    rw [List.foldl_cons, ih, List.countP_cons]
    by_cases ht : wt.2 ∈ tag_list
    · rw [if_pos ht]
      by_cases hw : wt.1 = w
      · have hstep : fdInc fd wt.1 w = fd w + 1 := by
          rw [fdInc, if_pos hw.symm]
        rw [hstep]
        simp [hw, ht]
        omega
      · have hstep : fdInc fd wt.1 w = fd w := by
          rw [fdInc, if_neg (fun he => hw he.symm)]
        rw [hstep]
        simp [hw]
    · rw [if_neg ht]
      simp [ht]

/-- The outer loop of `tag_freq` over all tagged sentences counts over the
flattened pair list. -/
theorem tagfreq_outer (tag_list : List String) (sents : List (List (String × String)))
    (fd : String → Nat) (w : String) :
    (sents.foldl
        (fun fd sent =>
          sent.foldl (fun fd wt => if wt.2 ∈ tag_list then fdInc fd wt.1 else fd) fd) fd) w
      = fd w + (sents.flatten).countP
          (fun wt => decide (wt.1 = w) && decide (wt.2 ∈ tag_list)) := by
  induction sents generalizing fd with
  | nil => simp
  | cons s ss ih =>
    rw [List.foldl_cons, ih, tagfreq_inner, List.flatten_cons, List.countP_append]
    omega

/-- `tag_freq` counts, per word, the matching pairs of the flattened tagged
text. -/
theorem tag_freq_count (sents : List (List (String × String))) (tag_list : List String)
    (w : String) :
    tag_freq sents tag_list w
      = (sents.flatten).countP
          (fun wt => decide (wt.1 = w) && decide (wt.2 ∈ tag_list)) := by
  rw [tag_freq, tagfreq_outer]
  omega

/-- The inner loop of `tag_cond_freq` over one tagged sentence adds, at
each condition `t` and word `w`, the number of pairs of the sentence whose
word is `w`, whose tag is `t`, and whose tag lies in the tag list. -/
theorem tagcond_inner (tag_list : List String) (sent : List (String × String))
    (cfd : String → String → Nat) (t w : String) :
    (sent.foldl
        (fun cfd wt =>
          if wt.2 ∈ tag_list then
            fun t => if t = wt.2 then fdInc (cfd t) wt.1 else cfd t
          else cfd) cfd) t w
      = cfd t w + sent.countP
          (fun wt => decide (wt.1 = w) && decide (wt.2 = t) && decide (wt.2 ∈ tag_list)) := by
  induction sent generalizing cfd with
  | nil => simp
  | cons wt rest ih =>
    rw [List.foldl_cons, ih, List.countP_cons]
    by_cases ht : wt.2 ∈ tag_list
    · rw [if_pos ht]
      by_cases hcond : t = wt.2
      · by_cases hw : wt.1 = w
        · have hstep : (if t = wt.2 then fdInc (cfd t) wt.1 else cfd t) w
              = cfd t w + 1 := by
            rw [if_pos hcond]
            simp only [fdInc]
            rw [if_pos hw.symm]
          rw [hstep]
          have ht' : t ∈ tag_list := by rw [hcond]; exact ht
          simp [hw, hcond.symm, ht']
          omega
        · have hstep : (if t = wt.2 then fdInc (cfd t) wt.1 else cfd t) w
              = cfd t w := by
            rw [if_pos hcond]
            simp only [fdInc]
            rw [if_neg (fun he => hw he.symm)]
          rw [hstep]
          simp [hw]
      · have hstep : (if t = wt.2 then fdInc (cfd t) wt.1 else cfd t) w
            = cfd t w := by
          rw [if_neg hcond]
        rw [hstep]
        have hcond' : ¬ (wt.2 = t) := fun he => hcond he.symm
        simp [hcond']
    · rw [if_neg ht]
      simp [ht]

/-- The outer loop of `tag_cond_freq` counts over the flattened pair
list. -/
theorem tagcond_outer (tag_list : List String) (sents : List (List (String × String)))
    (cfd : String → String → Nat) (t w : String) :
    (sents.foldl
        (fun cfd sent =>
          sent.foldl
            (fun cfd wt =>
              if wt.2 ∈ tag_list then
                fun t => if t = wt.2 then fdInc (cfd t) wt.1 else cfd t
              else cfd) cfd) cfd) t w
      = cfd t w + (sents.flatten).countP
          (fun wt => decide (wt.1 = w) && decide (wt.2 = t) && decide (wt.2 ∈ tag_list)) := by
  induction sents generalizing cfd with
  | nil => simp
  | cons s ss ih =>
    rw [List.foldl_cons, ih, tagcond_inner, List.flatten_cons, List.countP_append]
    omega

/-- `tag_cond_freq` counts, per tag and word, the matching pairs of the
flattened tagged text. -/
theorem tag_cond_freq_count (sents : List (List (String × String))) (tag_list : List String)
    (t w : String) :
    tag_cond_freq sents tag_list t w
      = (sents.flatten).countP
          (fun wt => decide (wt.1 = w) && decide (wt.2 = t) && decide (wt.2 ∈ tag_list)) := by
  rw [tag_cond_freq, tagcond_outer]
  omega

theorem sum_ite_not_mem {x : String} {d : List String} (h : x ∉ d) :
    (d.map (fun t => if x = t then (1 : Nat) else 0)).sum = 0 := by
  induction d with
  | nil => simp
  | cons a l ih =>
    simp only [List.map_cons, List.sum_cons]
    have hne : ¬ (x = a) := fun he => h (by rw [he]; exact List.mem_cons_self a l)
    rw [if_neg hne, ih (fun hm => h (List.mem_cons_of_mem a hm))]

theorem sum_ite_nodup_mem {x : String} {d : List String} (hnd : d.Nodup) (h : x ∈ d) :
    (d.map (fun t => if x = t then (1 : Nat) else 0)).sum = 1 := by
  induction d with
  | nil => simp at h
  | cons a l ih =>
    simp only [List.map_cons, List.sum_cons]
    rcases List.mem_cons.mp h with rfl | hmem
    · rw [if_pos rfl, sum_ite_not_mem (List.Nodup.not_mem hnd)]
    · have hne : ¬ (x = a) := fun he => (List.Nodup.not_mem hnd) (he ▸ hmem)
      rw [if_neg hne, ih (List.Nodup.of_cons hnd) hmem]

/-- Summing, over the distinct tags of the tag list, the per-tag counts of
a pair list gives the merged count of that pair list. -/
theorem sum_dedup_countP (tag_list : List String) (w : String)
    (pairs : List (String × String)) :
    (tag_list.dedup.map fun t =>
        pairs.countP
          (fun wt => decide (wt.1 = w) && decide (wt.2 = t) && decide (wt.2 ∈ tag_list))).sum
      = pairs.countP (fun wt => decide (wt.1 = w) && decide (wt.2 ∈ tag_list)) := by
  induction pairs with
  | nil => simp
  | cons wt rest ih =>
    have hmap : (tag_list.dedup.map fun t =>
        (wt :: rest).countP
          (fun x => decide (x.1 = w) && decide (x.2 = t) && decide (x.2 ∈ tag_list)))
        = tag_list.dedup.map fun t =>
            rest.countP
              (fun x => decide (x.1 = w) && decide (x.2 = t) && decide (x.2 ∈ tag_list))
            + if (decide (wt.1 = w) && decide (wt.2 = t) && decide (wt.2 ∈ tag_list)) = true
              then 1 else 0 :=
      List.map_congr_left fun t _ => List.countP_cons _ _ _
    rw [hmap, List.sum_map_add, ih, List.countP_cons]
    congr 1
    by_cases h1 : wt.1 = w
    · by_cases h2 : wt.2 ∈ tag_list
      · have hsimp : ∀ t : String,
            (if (decide (wt.1 = w) && decide (wt.2 = t) && decide (wt.2 ∈ tag_list)) = true
              then (1 : Nat) else 0) = if wt.2 = t then 1 else 0 := by
          intro t
          by_cases hc : wt.2 = t
          · rw [decide_eq_true h1, decide_eq_true h2, decide_eq_true hc, if_pos hc]
            simp
          · rw [decide_eq_true h1, decide_eq_true h2, decide_eq_false hc, if_neg hc]
            simp
        rw [List.map_congr_left fun t _ => hsimp t,
          sum_ite_nodup_mem (List.nodup_dedup tag_list) (List.mem_dedup.mpr h2)]
        simp [h1, h2]
      · have hz : ∀ t : String,
            (if (decide (wt.1 = w) && decide (wt.2 = t) && decide (wt.2 ∈ tag_list)) = true
              then (1 : Nat) else 0) = 0 := by
          intro t
          rw [decide_eq_false h2]
          simp
        rw [List.map_congr_left fun t _ => hz t]
        simp [h2]
    · have hz : ∀ t : String,
          (if (decide (wt.1 = w) && decide (wt.2 = t) && decide (wt.2 ∈ tag_list)) = true
            then (1 : Nat) else 0) = 0 := by
        intro t
        rw [decide_eq_false h1]
        simp
      rw [List.map_congr_left fun t _ => hz t]
      simp [h1]

/-- C8: for every tagging of the text, tag list, and word, the count the
merged distribution `tag_freq` assigns to the word equals the sum, over the
distinct tags of the tag list, of the counts the conditional distribution
`tag_cond_freq` assigns to the word under each tag. -/
theorem C8_tag_freq_sum (sents : List (List (String × String))) (tag_list : List String)
    (w : String) :
    (tag_list.dedup.map fun t => tag_cond_freq sents tag_list t w).sum
      = tag_freq sents tag_list w := by
  rw [List.map_congr_left fun t _ => tag_cond_freq_count sents tag_list t w,
    tag_freq_count, sum_dedup_countP]

end PyUtils
